import Mathlib

/-!
Shallow embedding of the HTML query-and-extraction core of the
WebScraping_Basics repository (`src/examples/*.py`, `src/demo_local.py`).

The parsed HTML tree supplied by the parsing collaborator is modelled as a
`Node` inductive; a parsed document is a list of root nodes.  BeautifulSoup
operations used by the scripts (`find`, `find_all`, `.text`, `.get`,
`select` with tag / descendant / child selectors) and the `urllib.parse`
operations (`urljoin`, `urlparse(...).netloc`) are embedded as Lean
functions.  The repository functions `extract_table_data`,
`table_to_dict_list`, `extract_all_links`, `categorize_links`,
`extract_metadata`, `extract_all_paragraphs` are then direct translations
of the Python source.
-/

namespace WebScrape

/-! ### Character-level string primitives

The Python string operations the scripts use (`str.strip`, `str.lower`,
and the reference parsing inside `urllib.parse`) are embedded as
structurally recursive functions over the character list of a `String`,
so that every definition evaluates by kernel reduction. -/

/-- The whitespace stripped by `str.strip()`. -/
def isSpaceChar (c : Char) : Bool :=
  c == ' ' || c == '\t' || c == '\n' || c == '\r'

/-- `str.strip()`: leading and trailing whitespace removed. -/
def strip (s : String) : String :=
  ⟨((s.data.dropWhile isSpaceChar).reverse.dropWhile isSpaceChar).reverse⟩

/-- ASCII lowering of one character. -/
def lowerChar (c : Char) : Char :=
  if 'A' ≤ c ∧ c ≤ 'Z' then Char.ofNat (c.toNat + 32) else c

/-- `str.lower()` (ASCII). -/
def lower (s : String) : String := ⟨s.data.map lowerChar⟩

/-- One node of a parsed HTML tree: either a text node or an element with a
tag name, an attribute list and an ordered list of children. -/
inductive Node where
  | text : String → Node
  | elem : String → List (String × String) → List Node → Node

mutual

/-- `.text` of a BeautifulSoup node: the concatenation of all descendant
text, in document order. -/
def nodeText : Node → String
  | .text s => s
  | .elem _ _ cs => nodeListText cs

/-- `.text` concatenated over a list of sibling nodes. -/
def nodeListText : List Node → String
  | [] => ""
  | n :: ns => nodeText n ++ nodeListText ns

end

/-- `tag.get(name)`: first attribute with the given name, if any. -/
def getAttr (name : String) : Node → Option String
  | .text _ => none
  | .elem _ attrs _ => attrs.lookup name

/-- `tag.get(name, default)`: attribute value with a default. -/
def getAttrD (name dflt : String) (n : Node) : String :=
  (getAttr name n).getD dflt

/-- Tag name of an element node (text nodes have none). -/
def tagOf : Node → Option String
  | .text _ => none
  | .elem t _ _ => some t

mutual

/-- `find_all(tags)` starting from a list of sibling subtrees: all element
descendants whose tag is among `tags`, in document (pre)order.  A matching
element is listed before its own matching descendants, as BeautifulSoup
does. -/
def findAllFrom (tags : List String) : List Node → List Node
  | [] => []
  | n :: ns => findAllNode tags n ++ findAllFrom tags ns

/-- `find_all(tags)` search of one subtree, the subtree root included. -/
def findAllNode (tags : List String) : Node → List Node
  | .text _ => []
  | .elem t a cs =>
      (if t ∈ tags then [Node.elem t a cs] else []) ++ findAllFrom tags cs

end

/-- `element.find_all(tags)`: all matching descendants of an element,
the element itself excluded. -/
def elemFindAll (tags : List String) : Node → List Node
  | .text _ => []
  | .elem _ _ cs => findAllFrom tags cs

/-- `element.find(tag)`: the first matching descendant, if any. -/
def elemFind (tag : String) (n : Node) : Option Node :=
  (elemFindAll [tag] n).head?

/-- `soup.find(tag)` over a document given as a list of roots. -/
def docFind (tag : String) (doc : List Node) : Option Node :=
  (findAllFrom [tag] doc).head?

/-! ### CSS selector matching (`soup.select`)

The scripts delegate selector matching to the parsing collaborator; the
restricted grammar they use (bare tag, descendant combinator, child
combinator) is embedded here with standard CSS semantics: a selector
matches elements only, a descendant combinator requires a strict ancestor
with the parent tag, a child combinator requires the direct parent to have
the parent tag.  Results are in document order without duplicates. -/

mutual

/-- All elements satisfying `p` among the subtrees of a sibling list, in
document (pre)order. -/
def selectFrom (p : Node → Bool) : List Node → List Node
  | [] => []
  | n :: ns => selectNode p n ++ selectFrom p ns

/-- All elements satisfying `p` in one subtree, its root included. -/
def selectNode (p : Node → Bool) : Node → List Node
  | .text _ => []
  | .elem t a cs =>
      (if p (.elem t a cs) then [Node.elem t a cs] else []) ++ selectFrom p cs

end

/-- Does the node match a bare tag-name selector? -/
def matchesTag (tag : String) : Node → Bool
  | .text _ => false
  | .elem t _ _ => t == tag

/-- `select_by_tag` of `02_css_selectors.py`: `soup.select(tag)`. -/
def select_by_tag (doc : List Node) (tag : String) : List Node :=
  selectFrom (matchesTag tag) doc

mutual

/-- Descendant-combinator search over a sibling list; `under` records
whether an ancestor matching `ptag` has already been passed. -/
def selDescFrom (ptag ctag : String) (under : Bool) : List Node → List Node
  | [] => []
  | n :: ns => selDescNode ptag ctag under n ++ selDescFrom ptag ctag under ns

/-- Descendant-combinator search of one subtree. -/
def selDescNode (ptag ctag : String) (under : Bool) : Node → List Node
  | .text _ => []
  | .elem t a cs =>
      (if under && (t == ctag) then [Node.elem t a cs] else []) ++
        selDescFrom ptag ctag (under || (t == ptag)) cs

end

/-- `select_nested_elements` of `02_css_selectors.py`:
`soup.select(f"\x7bparent\x7d \x7bchild\x7d")`, the descendant combinator. -/
def select_nested_elements (doc : List Node) (ptag ctag : String) : List Node :=
  selDescFrom ptag ctag false doc

mutual

/-- Child-combinator search over a sibling list; `parentP` records whether
the direct parent of these siblings matches `ptag` (false at the roots,
which have no parent). -/
def selChildFrom (ptag ctag : String) (parentP : Bool) : List Node → List Node
  | [] => []
  | n :: ns => selChildNode ptag ctag parentP n ++ selChildFrom ptag ctag parentP ns

/-- Child-combinator search of one subtree. -/
def selChildNode (ptag ctag : String) (parentP : Bool) : Node → List Node
  | .text _ => []
  | .elem t a cs =>
      (if parentP && (t == ctag) then [Node.elem t a cs] else []) ++
        selChildFrom ptag ctag (t == ptag) cs

end

/-- `select_direct_children` of `02_css_selectors.py`:
`soup.select(f"\x7bparent\x7d > \x7bchild\x7d")`, the child combinator. -/
def select_direct_children (doc : List Node) (ptag ctag : String) : List Node :=
  selChildFrom ptag ctag false doc

/-! ### URL resolution (`urllib.parse`) -/

/-- Split a character list `scheme://rest` at its first `://`; `none` when
no `://` occurs. -/
def splitSchemeChars : List Char → Option (List Char × List Char)
  | ':' :: '/' :: '/' :: rest => some ([], rest)
  | c :: cs => (splitSchemeChars cs).map (fun p => (c :: p.1, p.2))
  | [] => none

/-- Does a character end the authority component of a URL? -/
def netlocEnd (c : Char) : Bool := c == '/' || c == '?' || c == '#'

/-- `urlparse(url).netloc`: the authority component, present only after
`//`; empty for relative references and non-authority schemes. -/
def netloc (url : String) : String :=
  match splitSchemeChars url.data with
  | some (_, rest) => ⟨rest.takeWhile (fun c => !netlocEnd c)⟩
  | none =>
      match url.data with
      | '/' :: '/' :: rest => ⟨rest.takeWhile (fun c => !netlocEnd c)⟩
      | _ => ""

/-- Directory part of a path, with trailing slash: the last segment is
dropped, a path without `/` becomes `/`. -/
def dirChars (path : List Char) : List Char :=
  if path.contains '/' then (path.reverse.dropWhile (fun c => !(c == '/'))).reverse
  else ['/']

/-- `urllib.parse.urljoin(base, href)` for the reference forms the scripts
rely on: absolute URLs pass through; scheme-relative (`//…`) references
take the base scheme; root-relative (`/…`), fragment-only (`#…`),
query-only (`?…`) and path-relative references resolve against the base
scheme, authority and path. -/
def urljoin (base href : String) : String :=
  if href = "" then base
  else if (splitSchemeChars href.data).isSome then href
  else
    match splitSchemeChars base.data with
    | none => href
    | some (scheme, rest) =>
        let host := rest.takeWhile (fun c => !netlocEnd c)
        let basePath := rest.drop host.length
        match href.data with
        | '/' :: '/' :: _ => ⟨scheme ++ ':' :: href.data⟩
        | '/' :: _ => ⟨scheme ++ ':' :: '/' :: '/' :: host ++ href.data⟩
        | '#' :: _ =>
            ⟨scheme ++ ':' :: '/' :: '/' :: host ++
              basePath.takeWhile (fun c => !(c == '#')) ++ href.data⟩
        | '?' :: _ =>
            ⟨scheme ++ ':' :: '/' :: '/' :: host ++
              basePath.takeWhile (fun c => !(c == '?' || c == '#')) ++ href.data⟩
        | _ =>
            ⟨scheme ++ ':' :: '/' :: '/' :: host ++
              dirChars (basePath.takeWhile (fun c => !(c == '?' || c == '#'))) ++
                href.data⟩

/-! ### Link extraction (`03_links_and_images.py`) -/

/-- A link produced by `extract_all_links`: text and absolute URL. -/
structure LinkRecord where
  text : String
  url : String
deriving DecidableEq, Repr

/-- `extract_all_links(soup, base_url)`: one record per anchor with a
non-empty `href`, in document order; the text defaults to `"No text"`. -/
def extract_all_links (doc : List Node) (base_url : String) : List LinkRecord :=
  (findAllFrom ["a"] doc).filterMap (fun link =>
    match getAttr "href" link with
    | some href =>
        if href ≠ "" then
          let t := strip (nodeText link)
          some { text := if t ≠ "" then t else "No text"
                 url := urljoin base_url href }
        else none
    | none => none)

/-- Result of `categorize_links`: the `internal` and (source name
`external`) `ext` buckets. -/
structure LinkPartition where
  internal : List LinkRecord
  ext : List LinkRecord
deriving DecidableEq, Repr

/-- `categorize_links(links)`: the first link's network location is the
reference domain; a link is internal when its location equals it or is
empty. -/
def categorize_links (links : List LinkRecord) : LinkPartition :=
  match links with
  | [] => { internal := [], ext := [] }
  | first :: _ =>
      let base_domain := netloc first.url
      let parts := links.partition
        (fun link => netloc link.url == base_domain || netloc link.url == "")
      { internal := parts.1, ext := parts.2 }

/-! ### Table extraction (`04_table_scraping.py`) -/

/-- The result of `extract_table_data`: headers and rows of trimmed cell
texts. -/
structure TableData where
  headers : List String
  rows : List (List String)
deriving DecidableEq, Repr

/-- The header-computation part of `extract_table_data`: the `th` cells of
a `thead` descendant when one exists, otherwise the `th` cells of the first
`tr`, otherwise empty. -/
def tableHeaders (table : Node) : List String :=
  match elemFind "thead" table with
  | some header_row => (elemFindAll ["th"] header_row).map (fun th => strip (nodeText th))
  | none =>
      match elemFind "tr" table with
      | some first_row => (elemFindAll ["th"] first_row).map (fun th => strip (nodeText th))
      | none => []

/-- The row-source part of `extract_table_data`: the `tr` descendants of a
`tbody` when one exists; otherwise all `tr` descendants of the table, the
first dropped exactly when `headers` is non-empty. -/
def tableRowSource (table : Node) (headers : List String) : List Node :=
  match elemFind "tbody" table with
  | some tbody => elemFindAll ["tr"] tbody
  | none =>
      let table_rows := elemFindAll ["tr"] table
      if headers ≠ [] then table_rows.drop 1 else table_rows

/-- `row.find_all(["td", "th"])` mapped to trimmed cell text. -/
def cellTexts (row : Node) : List String :=
  (elemFindAll ["td", "th"] row).map (fun cell => strip (nodeText cell))

/-- `extract_table_data(table)` of `04_table_scraping.py`. -/
def extract_table_data (table : Node) : TableData :=
  let headers := tableHeaders table
  let rows := ((tableRowSource table headers).map cellTexts).filter (fun r => r ≠ [])
  { headers := headers, rows := rows }

/-- Key used by `table_to_dict_list` for cell index `i`: `headers[i]` when
in range, else `"Column_" ++ toString (i+1)`. -/
def keyAt (headers : List String) (i : Nat) : String :=
  headers.getD i ("Column_" ++ toString (i + 1))

/-- `row_dict[key] = value` on a Python dict preserving insertion order: an
existing binding of the key is overwritten in place, a new key is appended. -/
def dictSet (d : List (String × String)) (k v : String) : List (String × String) :=
  if d.any (fun kv => kv.1 = k) then
    d.map (fun kv => if kv.1 = k then (k, v) else kv)
  else d ++ [(k, v)]

/-- The per-row dict built by `table_to_dict_list`: cells paired with their
keys in index order, later duplicate keys overwriting earlier ones. -/
def rowDict (headers row : List String) : List (String × String) :=
  row.enum.foldl (fun d iv => dictSet d (keyAt headers iv.1) iv.2) []

/-- `table_to_dict_list(table_data)` of `04_table_scraping.py`: empty when
headers or rows are empty, otherwise one dict per row. -/
def table_to_dict_list (td : TableData) : List (List (String × String)) :=
  if td.headers = [] ∨ td.rows = [] then []
  else td.rows.map (fun row => rowDict td.headers row)

/-! ### Metadata and paragraph extraction -/

/-- The result of `extract_metadata`: all fields default to absent. -/
structure Metadata where
  title : Option String
  description : Option String
  keywords : Option String
  author : Option String
deriving DecidableEq, Repr

/-- One iteration of the `meta`-tag loop of `extract_metadata`. -/
def metaStep (md : Metadata) (tag : Node) : Metadata :=
  let name := lower (getAttrD "name" "" tag)
  let property_name := lower (getAttrD "property" "" tag)
  let content := getAttrD "content" "" tag
  if name = "description" ∨ property_name = "og:description" then
    { md with description := some content }
  else if name = "keywords" then { md with keywords := some content }
  else if name = "author" then { md with author := some content }
  else md

/-- `extract_metadata(soup)` of `05_advanced_techniques.py`; `none` models
the `None` sentinel returned by a failed fetch/parse. -/
def extract_metadata (soup : Option (List Node)) : Metadata :=
  match soup with
  | none => ⟨none, none, none, none⟩
  | some doc =>
      let md0 : Metadata := ⟨none, none, none, none⟩
      let md1 :=
        match docFind "title" doc with
        | some title_tag => { md0 with title := some (strip (nodeText title_tag)) }
        | none => md0
      (findAllFrom ["meta"] doc).foldl metaStep md1

/-- `extract_all_paragraphs(soup)` of `01_basic_scraping.py`: trimmed text
of every `p` whose trimmed text is non-empty, in document order. -/
def extract_all_paragraphs (soup : Option (List Node)) : List String :=
  match soup with
  | none => []
  | some doc =>
      (findAllFrom ["p"] doc).filterMap (fun p =>
        let t := strip (nodeText p)
        if t ≠ "" then some t else none)

/-! ### Specification-side helper definitions -/

/-- Does an anchor carry a non-empty `href`?  (Both a missing and an empty
`href` are falsy in the Python source.) -/
def anchorHasHref (a : Node) : Bool :=
  ((getAttr "href" a).getD "") ≠ ""

/-- The record `extract_all_links` builds for one qualifying anchor. -/
def linkRecordOf (base_url : String) (a : Node) : LinkRecord :=
  { text := if strip (nodeText a) ≠ "" then strip (nodeText a) else "No text"
    url := urljoin base_url ((getAttr "href" a).getD "") }

/-- Content of the last `meta` element satisfying `p`, if any. -/
def lastContent (p : Node → Bool) (metas : List Node) : Option String :=
  ((metas.filter p).getLast?).map (getAttrD "content" "")

/-- The condition under which `extract_metadata` classifies a `meta`
element to the description field. -/
def descCond (tag : Node) : Bool :=
  (lower (getAttrD "name" "" tag) == "description") ||
    (lower (getAttrD "property" "" tag) == "og:description")

/-- The condition under which `extract_metadata` classifies a `meta`
element to the keywords field: name `keywords` and not already claimed by
the description rule. -/
def keywCond (tag : Node) : Bool :=
  (lower (getAttrD "name" "" tag) == "keywords") && !(descCond tag)

/-- The condition under which `extract_metadata` classifies a `meta`
element to the author field: name `author` and not already claimed by the
description rule. -/
def authCond (tag : Node) : Bool :=
  (lower (getAttrD "name" "" tag) == "author") && !(descCond tag)

/-! ### Example documents used for concrete instances -/

/-- `<a href="/about">About</a>` inside a body. -/
def exAnchor : Node := .elem "a" [("href", "/about")] [.text "About"]

/-- Document holding `exAnchor`. -/
def exLinkDoc : List Node := [.elem "body" [] [exAnchor]]

/-- First row of `exTable`: a header-cell row sitting inside the `tbody`. -/
def exHeaderRow : Node := .elem "tr" [] [.elem "th" [] [.text "H"]]

/-- Data row of `exTable`. -/
def exDataRow : Node := .elem "tr" [] [.elem "td" [] [.text "a"]]

/-- The `tbody` of `exTable`, holding the header row and a data row. -/
def exTbody : Node := .elem "tbody" [] [exHeaderRow, exDataRow]

/-- A table with no `thead` whose first row holds `th` cells and lies
inside an explicit `tbody`. -/
def exTable : Node := .elem "table" [] [exTbody]

/-- Data row of `exTable2`. -/
def exDataRow2 : Node := .elem "tr" [] [.elem "td" [] [.text " a "], .elem "td" [] [.text "b"]]

/-- A table with no `thead` and no `tbody`: first row of `th` cells, then a
data row. -/
def exTable2 : Node := .elem "table" []
  [.elem "tr" [] [.elem "th" [] [.text "H1"], .elem "th" [] [.text "H2"]], exDataRow2]

/-- `<p>deep</p>`, nested two levels below a `div`. -/
def exP : Node := .elem "p" [] [.text "deep"]

/-- `<section><p>deep</p></section>`. -/
def exSection : Node := .elem "section" [] [exP]

/-- `<div><section><p>deep</p></section></div>` as a document. -/
def exNested : List Node := [.elem "div" [] [exSection]]

/-- A head with a title, two author metas and a meta carrying both
`name="keywords"` and `property="og:description"`. -/
def exMetaDoc : List Node := [.elem "head" []
  [.elem "title" [] [.text " T "],
   .elem "meta" [("name", "Author"), ("content", "A1")] [],
   .elem "meta" [("name", "author"), ("content", "A2")] []]]

/-- A single `meta` with `name="keywords"` and `property="og:description"`. -/
def exMetaKP : Node := .elem "meta"
  [("name", "keywords"), ("property", "og:description"), ("content", "X")] []

/-! ### General lemmas -/

/-- A `filterMap` whose function keeps exactly the elements passing `q`
is a `filter` followed by a `map`. -/
theorem filterMap_eq_filter_map {α β : Type} (f : α → Option β) (q : α → Bool)
    (g : α → β) (h : ∀ a, f a = if q a then some (g a) else none) :
    ∀ l : List α, l.filterMap f = (l.filter q).map g := by
  intro l
  induction l with
  | nil => rfl
  | cons a as ih =>
      rw [List.filterMap_cons, List.filter_cons, h a]
      by_cases hq : q a
      · simp only [hq, if_true, List.map_cons, ih]
      · simp only [Bool.not_eq_true] at hq
        simp only [hq, Bool.false_eq_true, if_false, ih]

/-- A `filterMap` keeping `g a` exactly when it satisfies `q` is a `map`
followed by a `filter`. -/
theorem filterMap_eq_map_filter {α β : Type} (g : α → β) (q : β → Prop)
    [DecidablePred q] :
    ∀ l : List α,
      l.filterMap (fun a => if q (g a) then some (g a) else none) =
        (l.map g).filter (fun b => decide (q b)) := by
  intro l
  induction l with
  | nil => rfl
  | cons a as ih =>
      rw [List.filterMap_cons, List.map_cons, List.filter_cons]
      by_cases hq : q (g a) <;> simp [hq, ih]

/-! ### Claim theorems: links and paragraphs -/

/-- **C3.** `extract_all_links` yields exactly one record per anchor whose
`href` is non-empty, in document order, with the URL resolved against the
base URL and the text defaulting to `"No text"`; anchors without an `href`
(or with an empty one) produce nothing.  In particular
`<a href="/about">About</a>` against base `https://example.com/page`
yields `{text := "About", url := "https://example.com/about"}`. -/
theorem extract_all_links_spec :
    (∀ (doc : List Node) (base_url : String),
        extract_all_links doc base_url =
          ((findAllFrom ["a"] doc).filter anchorHasHref).map (linkRecordOf base_url)) ∧
      extract_all_links exLinkDoc "https://example.com/page" =
        [{ text := "About", url := "https://example.com/about" }] := by
  constructor
  · intro doc base_url
    refine filterMap_eq_filter_map _ anchorHasHref (linkRecordOf base_url) ?_ _
    intro a
    cases ha : getAttr "href" a with
    | none => simp [anchorHasHref, ha]
    | some href =>
        by_cases h0 : href = ""
        · simp [anchorHasHref, ha, h0]
        · simp [anchorHasHref, ha, h0, linkRecordOf]
  · rfl

/-- **C9.** `extract_all_paragraphs` returns exactly the trimmed text of
each `p` element whose trimmed text is non-empty, in document order;
whitespace-only paragraphs are dropped, and the absent-document sentinel
yields the empty list. -/
theorem extract_all_paragraphs_spec :
    (∀ doc : List Node,
        extract_all_paragraphs (some doc) =
          ((findAllFrom ["p"] doc).map (fun p => strip (nodeText p))).filter
            (fun t => t ≠ "")) ∧
      extract_all_paragraphs none = [] := by
  refine ⟨fun doc => ?_, rfl⟩
  exact filterMap_eq_map_filter (fun p => strip (nodeText p)) (fun t => t ≠ "") _

/-- **C10.** On the parse-failure sentinel, `extract_metadata` returns the
record with all four fields absent (and, being a total function, raises
nothing). -/
theorem extract_metadata_none :
    extract_metadata none = { title := none, description := none
                              keywords := none, author := none } := rfl

/-- **C5.** `categorize_links` keeps both buckets empty on empty input and
otherwise marks a link internal exactly when its network location equals
that of the first link or is empty, external otherwise, preserving order;
in particular of two links on `https://a.com/x` and `https://b.com/y` the
first is internal and the second external. -/
theorem categorize_links_spec :
    categorize_links [] = { internal := [], ext := [] } ∧
      (∀ (first : LinkRecord) (rest : List LinkRecord),
        (categorize_links (first :: rest)).internal =
            (first :: rest).filter
              (fun l => netloc l.url == netloc first.url || netloc l.url == "") ∧
          (categorize_links (first :: rest)).ext =
            (first :: rest).filter
              (fun l => !(netloc l.url == netloc first.url || netloc l.url == ""))) ∧
      categorize_links [⟨"x", "https://a.com/x"⟩, ⟨"y", "https://b.com/y"⟩] =
        { internal := [⟨"x", "https://a.com/x"⟩], ext := [⟨"y", "https://b.com/y"⟩] } := by
  refine ⟨rfl, fun first rest => ?_, by decide⟩
  constructor
  · show ((first :: rest).partition
        (fun l => netloc l.url == netloc first.url || netloc l.url == "")).1 = _
    rw [List.partition_eq_filter_filter]
  · show ((first :: rest).partition
        (fun l => netloc l.url == netloc first.url || netloc l.url == "")).2 = _
    rw [List.partition_eq_filter_filter]
    simp only [Function.comp_def]

/-! ### Claim theorems: selectors -/

mutual

/-- Over a sibling list, a bare tag-name `select` agrees with `find_all`. -/
theorem selectFrom_tag_eq (t : String) :
    ∀ ns : List Node, selectFrom (matchesTag t) ns = findAllFrom [t] ns
  | [] => rfl
  | n :: ns => by
      rw [selectFrom, findAllFrom, selectNode_tag_eq t n, selectFrom_tag_eq t ns]

/-- Over one subtree, a bare tag-name `select` agrees with `find_all`. -/
theorem selectNode_tag_eq (t : String) :
    ∀ n : Node, selectNode (matchesTag t) n = findAllNode [t] n
  | .text _ => rfl
  | .elem tg a cs => by
      rw [selectNode, findAllNode, selectFrom_tag_eq t cs]
      congr 1
      by_cases h : tg = t <;> simp [matchesTag, h]

end

/-- **C7.** For every document and tag, `find_all(T)` and `select(T)`
return the same number of elements (indeed the same element list). -/
theorem find_all_select_tag_agree :
    ∀ (doc : List Node) (t : String),
      (findAllFrom [t] doc).length = (select_by_tag doc t).length := by
  intro doc t
  rw [select_by_tag, selectFrom_tag_eq]

mutual

/-- Any match of the child combinator is a match of the descendant
combinator, over a sibling list (the ancestor flag may only widen). -/
theorem selChildFrom_sub (ptag ctag : String) (b b' : Bool) (hb : b = true → b' = true) :
    ∀ (ns : List Node) (e : Node),
      e ∈ selChildFrom ptag ctag b ns → e ∈ selDescFrom ptag ctag b' ns
  | [], e => by
      intro h
      rw [selChildFrom] at h
      cases h
  | n :: ns, e => by
      intro h
      rw [selChildFrom] at h
      rw [selDescFrom]
      rcases List.mem_append.mp h with h1 | h2
      · exact List.mem_append_left _ (selChildNode_sub ptag ctag b b' hb n e h1)
      · exact List.mem_append_right _ (selChildFrom_sub ptag ctag b b' hb ns e h2)

/-- Any match of the child combinator is a match of the descendant
combinator, over one subtree. -/
theorem selChildNode_sub (ptag ctag : String) (b b' : Bool) (hb : b = true → b' = true) :
    ∀ (n : Node) (e : Node),
      e ∈ selChildNode ptag ctag b n → e ∈ selDescNode ptag ctag b' n
  | .text _, e => by
      intro h
      rw [selChildNode] at h
      cases h
  | .elem tg a cs, e => by
      intro h
      rw [selChildNode] at h
      rw [selDescNode]
      rcases List.mem_append.mp h with h1 | h2
      · by_cases hc : (b && (tg == ctag)) = true
        · rw [if_pos hc] at h1
          have hb2 : (b' && (tg == ctag)) = true := by
            rcases (Bool.and_eq_true _ _).mp hc with ⟨hb1, ht⟩
            rw [hb hb1, ht]
            rfl
          exact List.mem_append_left _ (by rw [if_pos hb2]; exact h1)
        · rw [if_neg hc] at h1
          cases h1
      · refine List.mem_append_right _
          (selChildFrom_sub ptag ctag (tg == ptag) (b' || (tg == ptag)) ?_ cs e h2)
        intro hp
        rw [hp, Bool.or_true]

end

/-- **C6.** The child combinator only returns direct children (every match
of `"div > p"` is a match of `"div p"`), and on a `div` holding a `section`
holding a `p`, `select("div > p")` does not return the `p` while
`select("div p")` does (and `select("div > section")` does return the
direct child `section`). -/
theorem child_vs_descendant_combinator :
    (∀ (ptag ctag : String) (doc : List Node) (e : Node),
        e ∈ select_direct_children doc ptag ctag →
          e ∈ select_nested_elements doc ptag ctag) ∧
      select_direct_children exNested "div" "p" = [] ∧
        select_nested_elements exNested "div" "p" = [exP] ∧
          select_direct_children exNested "div" "section" = [exSection] :=
  ⟨fun ptag ctag doc e h => selChildFrom_sub ptag ctag false false (fun hf => hf) doc e h,
    rfl, rfl, rfl⟩

/-- Witness for the child-combinator inclusion: the `p` directly below the
`section` is found by `"section > p"`, hence also by `"section p"`. -/
theorem child_vs_descendant_combinator_witness :
    exP ∈ select_nested_elements exNested "section" "p" :=
  child_vs_descendant_combinator.1 "section" "p" exNested exP
    (by rw [show select_direct_children exNested "section" "p" = [exP] from rfl]
        exact List.mem_singleton.mpr rfl)

/-! ### Claim theorems: table extraction -/

/-- **C8.** Every returned row is non-empty, every returned row is the
trimmed `td`/`th` cell texts of a row of the row source, and every row of
the row source with at least one cell is returned — regardless of how its
length compares to the headers. -/
theorem extract_table_rows_invariants :
    ∀ table : Node,
      (∀ row ∈ (extract_table_data table).rows, row ≠ []) ∧
        (∀ row ∈ (extract_table_data table).rows,
            ∃ tr ∈ tableRowSource table (tableHeaders table), row = cellTexts tr) ∧
          (∀ tr ∈ tableRowSource table (tableHeaders table),
            cellTexts tr ≠ [] → cellTexts tr ∈ (extract_table_data table).rows) := by
  intro table
  have hrows : (extract_table_data table).rows =
      ((tableRowSource table (tableHeaders table)).map cellTexts).filter
        (fun r => r ≠ []) := rfl
  refine ⟨?_, ?_, ?_⟩
  · intro row hr
    rw [hrows] at hr
    exact of_decide_eq_true (List.mem_filter.mp hr).2
  · intro row hr
    rw [hrows] at hr
    rcases List.mem_map.mp (List.mem_filter.mp hr).1 with ⟨tr, htr, he⟩
    exact ⟨tr, htr, he.symm⟩
  · intro tr htr hne
    rw [hrows]
    exact List.mem_filter.mpr ⟨List.mem_map_of_mem _ htr, decide_eq_true hne⟩

/-- Witness for the row invariants on `exTable2`: its data row, whose two
cells do not match the two headers in any enforced way, is returned. -/
theorem extract_table_rows_invariants_witness :
    cellTexts exDataRow2 ∈ (extract_table_data exTable2).rows :=
  (extract_table_rows_invariants exTable2).2.2 exDataRow2
    (by rw [show tableRowSource exTable2 (tableHeaders exTable2) = [exDataRow2] from rfl]
        exact List.mem_singleton.mpr rfl)
    (by decide)

/-- **C1 counterexample.** In `exTable` the first row holds header cells
and lies inside an explicit `tbody`: its cells become the headers, yet the
row is *not* excluded — its cell texts `["H"]` reappear among the returned
rows, contradicting the claim that a row consumed as header never appears
among the returned rows. -/
theorem extract_table_header_row_reappears :
    tableHeaders exTable = ["H"] ∧
      elemFind "thead" exTable = none ∧
        elemFind "tr" exTable = some exHeaderRow ∧
          (extract_table_data exTable).rows = [["H"], ["a"]] ∧
            cellTexts exHeaderRow ∈ (extract_table_data exTable).rows := by
  refine ⟨rfl, rfl, rfl, rfl, ?_⟩
  rw [show (extract_table_data exTable).rows = [["H"], ["a"]] from rfl,
    show cellTexts exHeaderRow = ["H"] from rfl]
  exact List.mem_cons_self _ _

/-- **C1 (amended).** Headers follow the three-step rule (`thead` cells,
else first-row `th` cells, else empty).  The row source is the `tbody`'s
rows when a `tbody` exists — with no exclusion, so a header-consumed row
inside the `tbody` reappears; only when no `tbody` exists is the table's
first row dropped, and that exactly when headers is non-empty. -/
theorem extract_table_data_policy :
    ∀ table : Node,
      (∀ hd, elemFind "thead" table = some hd →
          (extract_table_data table).headers =
            (elemFindAll ["th"] hd).map (fun th => strip (nodeText th))) ∧
        (elemFind "thead" table = none →
          ∀ fr, elemFind "tr" table = some fr →
            (extract_table_data table).headers =
              (elemFindAll ["th"] fr).map (fun th => strip (nodeText th))) ∧
          (elemFind "thead" table = none → elemFind "tr" table = none →
            (extract_table_data table).headers = []) ∧
            (∀ tb, elemFind "tbody" table = some tb →
              (extract_table_data table).rows =
                ((elemFindAll ["tr"] tb).map cellTexts).filter (fun r => r ≠ [])) ∧
              (elemFind "tbody" table = none →
                (extract_table_data table).rows =
                  ((if tableHeaders table ≠ [] then (elemFindAll ["tr"] table).drop 1
                    else elemFindAll ["tr"] table).map cellTexts).filter
                    (fun r => r ≠ [])) := by
  intro table
  have hh : (extract_table_data table).headers = tableHeaders table := rfl
  have hr : (extract_table_data table).rows =
      ((tableRowSource table (tableHeaders table)).map cellTexts).filter
        (fun r => r ≠ []) := rfl
  refine ⟨?_, ?_, ?_, ?_, ?_⟩
  · intro hd h
    rw [hh]
    unfold tableHeaders
    rw [h]
  · intro h fr h2
    rw [hh]
    unfold tableHeaders
    rw [h, h2]
  · intro h h2
    rw [hh]
    unfold tableHeaders
    rw [h, h2]
  · intro tb h
    rw [hr]
    unfold tableRowSource
    rw [h]
  · intro h
    rw [hr]
    unfold tableRowSource
    rw [h]

/-- Witness for the table policy on `exTable`: because a `tbody` exists,
the returned rows are the `tbody`'s rows with no exclusion. -/
theorem extract_table_data_policy_witness :
    (extract_table_data exTable).rows =
      ((elemFindAll ["tr"] exTbody).map cellTexts).filter (fun r => r ≠ []) :=
  (extract_table_data_policy exTable).2.2.2.1 exTbody rfl

/-! ### Dict semantics for `table_to_dict_list` -/

/-- Lookup in a Python dict modelled as an ordered association list: the
value at the first (hence, with distinct keys, only) entry with key `k`. -/
def dlookup (k : String) : List (String × String) → Option String
  | [] => none
  | (a, b) :: rest => if k = a then some b else dlookup k rest

/-- Lookup distributes over append, preferring the left list. -/
theorem dlookup_append (k : String) :
    ∀ l l' : List (String × String),
      dlookup k (l ++ l') = (dlookup k l).or (dlookup k l')
  | [], l' => by
      rw [List.nil_append]
      cases dlookup k l' <;> rfl
  | (a, b) :: rest, l' => by
      by_cases h : k = a
      · rw [List.cons_append, dlookup, dlookup, if_pos h, if_pos h]
        rfl
      · rw [List.cons_append, dlookup, dlookup, if_neg h, if_neg h]
        exact dlookup_append k rest l'

/-- When no entry has key `k0`, lookup of `k0` fails. -/
theorem dlookup_eq_none_of_not_any (k0 : String) :
    ∀ d : List (String × String),
      d.any (fun kv => kv.1 = k0) = false → dlookup k0 d = none
  | [], _ => rfl
  | (a, b) :: rest, h => by
      rw [List.any_cons, Bool.or_eq_false_iff, decide_eq_false_iff_not] at h
      rw [dlookup, if_neg (fun he => h.1 he.symm)]
      exact dlookup_eq_none_of_not_any k0 rest h.2

/-- In-place overwrite of key `k0` leaves lookups of other keys alone. -/
theorem dlookup_map_overwrite_ne (k0 v k : String) (hk : ¬k = k0) :
    ∀ d : List (String × String),
      dlookup k (d.map (fun kv => if kv.1 = k0 then (k0, v) else kv)) = dlookup k d
  | [] => rfl
  | (a, b) :: rest => by
      by_cases ha : a = k0
      · rw [List.map_cons, if_pos ha, dlookup, dlookup, if_neg hk,
          if_neg (fun hka => hk (hka.trans ha))]
        exact dlookup_map_overwrite_ne k0 v k hk rest
      · rw [List.map_cons, if_neg ha, dlookup, dlookup]
        by_cases hka : k = a
        · rw [if_pos hka, if_pos hka]
        · rw [if_neg hka, if_neg hka]
          exact dlookup_map_overwrite_ne k0 v k hk rest

/-- In-place overwrite of a present key `k0` makes its lookup return the
new value. -/
theorem dlookup_map_overwrite_eq (k0 v : String) :
    ∀ d : List (String × String),
      d.any (fun kv => kv.1 = k0) = true →
        dlookup k0 (d.map (fun kv => if kv.1 = k0 then (k0, v) else kv)) = some v
  | [], h => by cases h
  | (a, b) :: rest, h => by
      by_cases ha : a = k0
      · subst ha
        rw [List.map_cons, if_pos (show (a, b).1 = a from rfl), dlookup, if_pos rfl]
      · have h2 : rest.any (fun kv => kv.1 = k0) = true := by
          rw [List.any_cons] at h
          rcases Bool.or_eq_true_iff.mp h with h1 | h1
          · exact absurd (of_decide_eq_true h1) ha
          · exact h1
        rw [List.map_cons, if_neg ha, dlookup, if_neg (fun he => ha he.symm)]
        exact dlookup_map_overwrite_eq k0 v rest h2

/-- Lookup after a Python-style `d[k0] = v` assignment: the assigned key
now maps to `v`, every other key is untouched. -/
theorem dlookup_dictSet (d : List (String × String)) (k0 v k : String) :
    dlookup k (dictSet d k0 v) = if k = k0 then some v else dlookup k d := by
  rw [dictSet]
  by_cases hany : d.any (fun kv => kv.1 = k0) = true
  · rw [if_pos hany]
    by_cases hk : k = k0
    · subst hk
      rw [if_pos rfl]
      exact dlookup_map_overwrite_eq k v d hany
    · rw [if_neg hk]
      exact dlookup_map_overwrite_ne k0 v k hk d
  · rw [if_neg hany, dlookup_append]
    by_cases hk : k = k0
    · subst hk
      rw [dlookup_eq_none_of_not_any k d (Bool.eq_false_iff.mpr hany), if_pos rfl,
        show dlookup k [(k, v)] = some v from by rw [dlookup, if_pos rfl]]
      rfl
    · rw [if_neg hk, show dlookup k [(k0, v)] = none from by
        rw [dlookup, if_neg hk]
        rfl]
      cases dlookup k d <;> rfl

/-- Folding Python dict assignments: the final lookup is the last-written
value among the pairs, falling back to the initial dict. -/
theorem foldl_dictSet_dlookup (headers : List String) (k : String) :
    ∀ (ps : List (Nat × String)) (d : List (String × String)),
      dlookup k (ps.foldl (fun d iv => dictSet d (keyAt headers iv.1) iv.2) d) =
        (dlookup k ((ps.map (fun iv => (keyAt headers iv.1, iv.2))).reverse)).or
          (dlookup k d)
  | [], d => by
      rw [List.foldl_nil, List.map_nil, List.reverse_nil]
      cases dlookup k d <;> rfl
  | iv :: ps, d => by
      rw [List.foldl_cons, foldl_dictSet_dlookup headers k ps _, List.map_cons,
        List.reverse_cons, dlookup_append, dlookup_dictSet]
      by_cases hk : k = keyAt headers iv.1
      · rw [if_pos hk, show dlookup k [(keyAt headers iv.1, iv.2)] = some iv.2 from by
          rw [dlookup, if_pos hk]]
        cases dlookup k ((ps.map (fun iv => (keyAt headers iv.1, iv.2))).reverse) <;> rfl
      · rw [if_neg hk, show dlookup k [(keyAt headers iv.1, iv.2)] = none from by
          rw [dlookup, if_neg hk]
          rfl]
        cases dlookup k ((ps.map (fun iv => (keyAt headers iv.1, iv.2))).reverse) <;>
          cases dlookup k d <;> rfl

/-- Lookup in a per-row dict of `table_to_dict_list` equals first-match
lookup over the reversed index-keyed pairs: last write wins. -/
theorem rowDict_dlookup (headers row : List String) (k : String) :
    dlookup k (rowDict headers row) =
      dlookup k ((row.enum.map (fun iv => (keyAt headers iv.1, iv.2))).reverse) := by
  rw [rowDict, foldl_dictSet_dlookup]
  cases dlookup k ((row.enum.map (fun iv => (keyAt headers iv.1, iv.2))).reverse) <;> rfl

/-- **C2 counterexample.** With empty headers and the single row `["a"]`,
`table_to_dict_list` returns the empty list — not the `Column_1`-keyed
record the per-row mapping (here evaluated as `rowDict`) would produce —
so the mapping is *not* applied when headers is empty. -/
theorem table_to_dict_list_empty_headers :
    table_to_dict_list ⟨[], [["a"]]⟩ = [] ∧
      rowDict [] ["a"] = [("Column_1", "a")] ∧
        table_to_dict_list ⟨[], [["a"]]⟩ ≠ [[("Column_1", "a")]] := by
  refine ⟨rfl, by decide, by decide⟩

/-- **C2 (amended).** When both headers and rows are non-empty,
`table_to_dict_list` maps each row to its dict; when headers or rows is
empty it returns the empty list instead.  The per-row dict pairs cell `i`
with `headers[i]` when `i < len(headers)` and with `"Column_" + (i+1)`
otherwise, and a lookup returns the value of the *last* cell whose key
matches (last-write-wins); the Library/Purpose/Version instance evaluates
as the spec displays it. -/
theorem table_to_dict_list_spec :
    (∀ (headers : List String) (rows : List (List String)),
        headers ≠ [] → rows ≠ [] →
          table_to_dict_list ⟨headers, rows⟩ = rows.map (rowDict headers)) ∧
      (∀ rows, table_to_dict_list ⟨[], rows⟩ = []) ∧
        (∀ headers, table_to_dict_list ⟨headers, []⟩ = []) ∧
          (∀ (headers row : List String) (k : String),
            dlookup k (rowDict headers row) =
              dlookup k ((row.enum.map
                (fun iv => (keyAt headers iv.1, iv.2))).reverse)) ∧
            (∀ (headers : List String) (i : Nat) (h : i < headers.length),
              keyAt headers i = headers.get ⟨i, h⟩) ∧
              (∀ (headers : List String) (i : Nat), headers.length ≤ i →
                keyAt headers i = "Column_" ++ toString (i + 1)) ∧
                table_to_dict_list ⟨["Library", "Purpose", "Version"],
                    [["Requests", "HTTP Requests", "2.31.0"]]⟩ =
                  [[("Library", "Requests"), ("Purpose", "HTTP Requests"),
                    ("Version", "2.31.0")]] := by
  refine ⟨?_, ?_, ?_, rowDict_dlookup, ?_, ?_, by decide⟩
  · intro headers rows h1 h2
    rw [table_to_dict_list, if_neg]
    intro h
    rcases h with h | h
    · exact h1 h
    · exact h2 h
  · intro rows
    rw [table_to_dict_list, if_pos (Or.inl rfl)]
  · intro headers
    rw [table_to_dict_list, if_pos (Or.inr rfl)]
  · intro headers i h
    rw [keyAt, List.getD_eq_getElem?_getD, List.getElem?_eq_getElem h]
    rfl
  · intro headers i h
    rw [keyAt, List.getD_eq_getElem?_getD, List.getElem?_eq_none h]
    rfl

/-- Witness for the amended mapping: a one-header, two-cell row goes
through the per-row dict (`Column_2` synthesized for the excess cell),
and both `keyAt` branches evaluate. -/
theorem table_to_dict_list_spec_witness :
    table_to_dict_list ⟨["A"], [["x", "y"]]⟩ = [["x", "y"]].map (rowDict ["A"]) ∧
      keyAt ["A"] 0 = ["A"].get ⟨0, by decide⟩ ∧
        keyAt ["A"] 1 = "Column_" ++ toString (1 + 1) :=
  ⟨table_to_dict_list_spec.1 ["A"] [["x", "y"]] (by decide) (by decide),
    table_to_dict_list_spec.2.2.2.2.1 ["A"] 0 (by decide),
    table_to_dict_list_spec.2.2.2.2.2.1 ["A"] 1 (by decide)⟩

/-! ### Claim theorems: metadata -/

/-- `Option.or` with an absent fallback changes nothing. -/
theorem optionOrNone (o : Option String) : o.or none = o := by
  cases o <;> rfl

/-- How one `meta` element updates each field: the description rule claims
the element first; keywords and author fire only on unclaimed elements. -/
theorem metaStep_fields (md : Metadata) (m : Node) :
    (metaStep md m).title = md.title ∧
      (metaStep md m).description =
          (if descCond m then some (getAttrD "content" "" m) else md.description) ∧
        (metaStep md m).keywords =
            (if keywCond m then some (getAttrD "content" "" m) else md.keywords) ∧
          (metaStep md m).author =
              (if authCond m then some (getAttrD "content" "" m) else md.author) := by
  by_cases hn : lower (getAttrD "name" "" m) = "description" <;>
    by_cases hp : lower (getAttrD "property" "" m) = "og:description" <;>
      by_cases hk : lower (getAttrD "name" "" m) = "keywords" <;>
        by_cases ha : lower (getAttrD "name" "" m) = "author" <;>
          refine ⟨?_, ?_, ?_, ?_⟩ <;>
            simp [metaStep, descCond, keywCond, authCond, hn, hp, hk, ha]

/-- Folding the `meta` loop: a field updated under `cond` ends at the
content of the last matching element, else at its initial value. -/
theorem foldl_lastContent (field : Metadata → Option String) (cond : Node → Bool)
    (hstep : ∀ md m, field (metaStep md m) =
      if cond m then some (getAttrD "content" "" m) else field md)
    (md : Metadata) :
    ∀ metas : List Node,
      field (metas.foldl metaStep md) = (lastContent cond metas).or (field md) := by
  intro metas
  induction metas using List.reverseRecOn with
  | nil =>
      rw [List.foldl_nil]
      cases field md <;> rfl
  | append_singleton ms m ih =>
      rw [List.foldl_append, List.foldl_cons, List.foldl_nil, hstep, ih]
      by_cases h : cond m = true
      · simp [lastContent, List.filter_append, h, List.getLast?_concat]
      · simp [lastContent, List.filter_append, h]

/-- The title is never touched by the `meta` loop. -/
theorem foldl_metaStep_title (md : Metadata) :
    ∀ metas : List Node, (metas.foldl metaStep md).title = md.title := by
  intro metas
  induction metas using List.reverseRecOn with
  | nil => rfl
  | append_singleton ms m ih =>
      rw [List.foldl_append, List.foldl_cons, List.foldl_nil,
        (metaStep_fields _ m).1, ih]

/-- Unfolding `extract_metadata` on a parsed document: title from the
first `title` element, then the `meta` fold from an otherwise-absent
record. -/
theorem extract_metadata_some (doc : List Node) :
    extract_metadata (some doc) =
      (findAllFrom ["meta"] doc).foldl metaStep
        { title := (docFind "title" doc).map (fun t => strip (nodeText t)),
          description := none, keywords := none, author := none } := by
  simp only [extract_metadata]
  cases docFind "title" doc <;> rfl

/-- **C4 counterexample.** A single `meta` with `name="keywords"` and
`property="og:description"` is the last (only) element whose name matches
`keywords`, with content `"X"` — yet the returned keywords field is
absent: the `og:description` rule claims the element first, so `keywords`
is not set. -/
theorem extract_metadata_keywords_shadowed :
    extract_metadata (some [exMetaKP]) =
        { title := none, description := some "X", keywords := none, author := none } ∧
      lower (getAttrD "name" "" exMetaKP) = "keywords" ∧
        getAttrD "content" "" exMetaKP = "X" ∧
          (extract_metadata (some [exMetaKP])).keywords ≠ some "X" := by
  exact ⟨rfl, rfl, rfl, by decide⟩

/-- **C4 (amended).** Title is the trimmed text of the first `title`
element (absent if none).  Each `meta` element is claimed by the first
matching rule — description (name `description` or property
`og:description`), then keywords, then author — and within each field the
last claimed element's content wins; on the example document the second of
two author metas wins. -/
theorem extract_metadata_spec :
    (∀ doc : List Node,
        (extract_metadata (some doc)).title =
            (docFind "title" doc).map (fun t => strip (nodeText t)) ∧
          (extract_metadata (some doc)).description =
              lastContent descCond (findAllFrom ["meta"] doc) ∧
            (extract_metadata (some doc)).keywords =
                lastContent keywCond (findAllFrom ["meta"] doc) ∧
              (extract_metadata (some doc)).author =
                  lastContent authCond (findAllFrom ["meta"] doc)) ∧
      (extract_metadata (some exMetaDoc)).author = some "A2" ∧
        (extract_metadata (some exMetaDoc)).title = some "T" := by
  refine ⟨fun doc => ⟨?_, ?_, ?_, ?_⟩, rfl, rfl⟩
  · rw [extract_metadata_some, foldl_metaStep_title]
  · rw [extract_metadata_some]
    exact (foldl_lastContent (fun md => md.description) descCond
        (fun md m => (metaStep_fields md m).2.1) _ _).trans (optionOrNone _)
  · rw [extract_metadata_some]
    exact (foldl_lastContent (fun md => md.keywords) keywCond
        (fun md m => (metaStep_fields md m).2.2.1) _ _).trans (optionOrNone _)
  · rw [extract_metadata_some]
    exact (foldl_lastContent (fun md => md.author) authCond
        (fun md m => (metaStep_fields md m).2.2.2) _ _).trans (optionOrNone _)

end WebScrape
